import Mathlib

/-!
Shallow embedding of `src/RAVL_tree.c`, a rank-augmented AVL tree
("RAVL tree"): an AVL-balanced binary search tree whose nodes cache
subtree height and size, supporting `search`, `insert`, `delete`,
`rank` (1-based rank of a key) and `findRank` (key at a 1-based rank).

Trees are modelled as an inductive type; the C functions' in-place
pointer updates become pure functions returning the new subtree root,
exactly mirroring the source's "caller rewires its child pointer"
protocol.  C `int` is modelled as `Int`; the opaque `void *value`
payload is modelled as `Int`.
-/

namespace RAVL

/-- A tree node (`RAVL_Node` in the C source) or the absent tree (`NULL`).
Fields in source order: key, value, height, size, left, right. -/
inductive Tree where
  | nil : Tree
  | node (key value hgt sz : Int) (left right : Tree) : Tree
deriving DecidableEq, Repr

/-- `height(node)` from the source: the cached height field, 0 for `NULL`. -/
def height : Tree → Int
  | .nil => 0
  | .node _ _ h _ _ _ => h

/-- `size(node)` from the source: the cached size field, 0 for `NULL`. -/
def size : Tree → Int
  | .nil => 0
  | .node _ _ _ s _ _ => s

/-- `node->key` field access; 0 is a junk value for `NULL` (never used on
`NULL` by the source). -/
def keyOf : Tree → Int
  | .nil => 0
  | .node k _ _ _ _ _ => k

/-- `node->left` field access (`NULL` for `NULL`). -/
def childLeft : Tree → Tree
  | .nil => .nil
  | .node _ _ _ _ l _ => l

/-- `node->right` field access (`NULL` for `NULL`). -/
def childRight : Tree → Tree
  | .nil => .nil
  | .node _ _ _ _ _ r => r

/-- `updateHeight(node)` from the source: recompute the height field from
the children's cached heights (0 for an absent child); no-op on `NULL`. -/
def updateHeight : Tree → Tree
  | .nil => .nil
  | .node k v _ s l r => .node k v (max (height l) (height r) + 1) s l r

/-- `updateSize(node)` from the source: recompute the size field from the
children's cached sizes (0 for an absent child); no-op on `NULL`. -/
def updateSize : Tree → Tree
  | .nil => .nil
  | .node k v h _ l r => .node k v h (size l + size r + 1) l r

/-- `balanceFactor(node)` from the source: cached height of the left child
minus cached height of the right child; 0 for `NULL`. -/
def balanceFactor : Tree → Int
  | .nil => 0
  | .node _ _ _ _ l r => height l - height r

/-- A node whose height and size fields are freshly recomputed from its
children — the result of the source's `updateHeight(node); updateSize(node)`
sequence on a node. -/
def mkNode (k v : Int) (l r : Tree) : Tree :=
  .node k v (max (height l) (height r) + 1) (size l + size r + 1) l r

/-- `rightRotation(node)` from the source: promote the left child;
returns the input unchanged when the node or its left child is `NULL`. -/
def rightRotation : Tree → Tree
  | .nil => .nil
  | .node k v h s .nil r => .node k v h s .nil r
  | .node k v _ _ (.node lk lv _ _ ll lr) r =>
      mkNode lk lv ll (mkNode k v lr r)

/-- `leftRotation(node)` from the source: promote the right child;
returns the input unchanged when the node or its right child is `NULL`. -/
def leftRotation : Tree → Tree
  | .nil => .nil
  | .node k v h s l .nil => .node k v h s l .nil
  | .node k v _ _ l (.node rk rv _ _ rl rr) =>
      mkNode rk rv (mkNode k v l rl) rr

/-- `rightLeftRotation(node)` from the source: right-rotate the right
child, then left-rotate the node; unchanged when node or right child is
`NULL`. -/
def rightLeftRotation : Tree → Tree
  | .nil => .nil
  | .node k v h s l .nil => .node k v h s l .nil
  | .node k v h s l r => leftRotation (.node k v h s l (rightRotation r))

/-- `leftRightRotation(node)` from the source: left-rotate the left child,
then right-rotate the node; unchanged when node or left child is `NULL`. -/
def leftRightRotation : Tree → Tree
  | .nil => .nil
  | .node k v h s .nil r => .node k v h s .nil r
  | .node k v h s l r => rightRotation (.node k v h s (leftRotation l) r)

/-- The `while (successor->left != NULL)` loop of `successor`: descend to
the leftmost node of a tree. -/
def leftmost : Tree → Tree
  | .nil => .nil
  | .node k v h s .nil r => .node k v h s .nil r
  | .node _ _ _ _ (.node lk lv lh ls ll lr) _ => leftmost (.node lk lv lh ls ll lr)

/-- `successor(node)` from the source: the leftmost node of the right
subtree, or `NULL` when there is no right child. -/
def successor : Tree → Tree
  | .nil => .nil
  | .node _ _ _ _ _ .nil => .nil
  | .node _ _ _ _ _ (.node rk rv rh rs rl rr) => leftmost (.node rk rv rh rs rl rr)

/-- `createNode(key, value)` from the source: a fresh leaf with height 1
and size 1 (allocation success assumed). -/
def createNode (key value : Int) : Tree :=
  .node key value 1 1 .nil .nil

/-- `search(node, key)` from the source: standard BST descent, returning
the found node or `NULL`. -/
def search : Tree → Int → Tree
  | .nil, _ => .nil
  | .node k v h s l r, key =>
      if k == key then .node k v h s l r
      else if k < key then search r key
      else search l key

/-- The rebalancing tail of `insert` (source lines 266-287): pick the
rotation from the node's balance factor, breaking ties by comparing the
inserted key with the relevant child's key. -/
def rebalanceInsert (node : Tree) (key : Int) : Tree :=
  let balance := balanceFactor node
  if balance > 1 then
    if key > keyOf (childLeft node) then leftRightRotation node
    else rightRotation node
  else if balance < -1 then
    if key < keyOf (childRight node) then rightLeftRotation node
    else leftRotation node
  else node

/-- `insert(node, key, value)` from the source: BST insert; equal key is
an immediate no-op; otherwise update height and size bottom-up and
rebalance. -/
def insert : Tree → Int → Int → Tree
  | .nil, key, value => createNode key value
  | .node k v h s l r, key, value =>
      if key < k then
        rebalanceInsert (updateSize (updateHeight (.node k v h s (insert l key value) r))) key
      else if key > k then
        rebalanceInsert (updateSize (updateHeight (.node k v h s l (insert r key value)))) key
      else .node k v h s l r

/-- The rebalancing tail of `delete` (source lines 326-344): pick the
rotation from the node's balance factor and the relevant child's balance
factor.  Note the source's right-heavy case: `balanceFactor(right) >= 0`
selects the single left rotation and `< 0` the double right-left
rotation. -/
def rebalanceDelete (node : Tree) : Tree :=
  let balance := balanceFactor node
  if balance > 1 ∧ balanceFactor (childLeft node) ≥ 0 then rightRotation node
  else if balance > 1 ∧ balanceFactor (childLeft node) < 0 then leftRightRotation node
  else if balance < -1 ∧ balanceFactor (childRight node) ≥ 0 then leftRotation node
  else if balance < -1 ∧ balanceFactor (childRight node) < 0 then rightLeftRotation node
  else node

/-- `delete(node, key)` from the source: BST delete (splice at ≤ 1 child;
copy the successor's key — the source does not copy its value — and
recurse right at 2 children), then update height and size and rebalance.
`NULL` propagates through the no-op `updateHeight`/`updateSize` and a
zero balance factor, returning `NULL`. -/
def delete : Tree → Int → Tree
  | .nil, _ => .nil
  | .node k v h s l r, key =>
      if key < k then
        rebalanceDelete (updateSize (updateHeight (.node k v h s (delete l key) r)))
      else if key > k then
        rebalanceDelete (updateSize (updateHeight (.node k v h s l (delete r key))))
      else
        if l = .nil then
          if r = .nil then .nil
          else rebalanceDelete (updateSize (updateHeight r))
        else if r = .nil then
          rebalanceDelete (updateSize (updateHeight l))
        else
          let sk := keyOf (successor (.node k v h s l r))
          rebalanceDelete (updateSize (updateHeight (.node sk v h s l (delete r sk))))

/-- Modelled from the spec: the `NOTIN` sentinel is defined in
`RAVL_tree.h`, which is not part of the sources; the spec describes it as
"a value guaranteed distinct from any valid rank, conventionally a
negative constant". -/
def NOTIN : Int := -1

/-- `rank(node, key)` from the source: 1-based rank of `key`; on a `NULL`
node it returns `NOTIN`, and a right recursion adds `size(left) + 1` to
the recursive result (including to a returned `NOTIN`). -/
def rank : Tree → Int → Int
  | .nil, _ => NOTIN
  | .node k _ _ _ l r, key =>
      if k == key then size l + 1
      else if key > k then size l + 1 + rank r key
      else rank l key

/-- `findRank(node, rank)` from the source: select the node at 1-based
rank `rk` using the cached left-subtree sizes. -/
def findRank : Tree → Int → Tree
  | .nil, _ => .nil
  | .node k v h s l r, rk =>
      let r1 := size l + 1
      if r1 == rk then .node k v h s l r
      else if rk < r1 then findRank l rk
      else findRank r (rk - r1)

/-! ## Specification-side definitions: invariants and operation sequences -/

/-- In-order key sequence of a tree. -/
def keys : Tree → List Int
  | .nil => []
  | .node k _ _ _ l r => keys l ++ k :: keys r

/-- All keys of `t` are strictly below the bound `b`. -/
def allLT (t : Tree) (b : Int) : Bool :=
  (keys t).all fun x => x < b

/-- All keys of `t` are strictly above the bound `b`. -/
def allGT (t : Tree) (b : Int) : Bool :=
  (keys t).all fun x => b < x

/-- Binary-search-tree order: at every node, all left keys are smaller and
all right keys larger than the node's key. -/
def isBST : Tree → Bool
  | .nil => true
  | .node k _ _ _ l r => allLT l k && allGT r k && isBST l && isBST r

/-- Every cached height field equals one plus the maximum of the
children's heights (absent child contributing 0). -/
def heightsOk : Tree → Bool
  | .nil => true
  | .node _ _ h _ l r =>
      (h == max (height l) (height r) + 1) && heightsOk l && heightsOk r

/-- Every cached size field equals one plus the sum of the children's
sizes (absent child contributing 0). -/
def sizesOk : Tree → Bool
  | .nil => true
  | .node _ _ _ s l r =>
      (s == size l + size r + 1) && sizesOk l && sizesOk r

/-- AVL balance: every node's balance factor lies in `[-1, 1]`. -/
def balanced : Tree → Bool
  | .nil => true
  | .node _ _ _ _ l r =>
      (-1 ≤ height l - height r && height l - height r ≤ 1) &&
        balanced l && balanced r

/-- Structural well-formedness: BST order with exact height and size
caches (balance not required). -/
def Wf (t : Tree) : Bool :=
  isBST t && heightsOk t && sizesOk t

/-- The data-model invariants of the spec: BST order, exact caches, and
AVL balance. -/
def Inv (t : Tree) : Bool :=
  Wf t && balanced t

/-- One public mutating operation. -/
inductive Op where
  | ins (key value : Int)
  | del (key : Int)
deriving DecidableEq, Repr

/-- Apply one operation to a tree root. -/
def applyOp (t : Tree) : Op → Tree
  | .ins k v => insert t k v
  | .del k => delete t k

/-- Apply a sequence of operations, left to right, starting from `t`. -/
def applyOps (t : Tree) (ops : List Op) : Tree :=
  ops.foldl applyOp t

end RAVL

namespace RAVL

/-! ## Basic lemmas -/

theorem updHS (k v h s : Int) (l r : Tree) :
    updateSize (updateHeight (.node k v h s l r)) = mkNode k v l r := rfl

theorem height_node (k v h s : Int) (l r : Tree) :
    height (.node k v h s l r) = h := rfl

theorem size_node (k v h s : Int) (l r : Tree) :
    size (.node k v h s l r) = s := rfl

theorem keys_node (k v h s : Int) (l r : Tree) :
    keys (.node k v h s l r) = keys l ++ k :: keys r := rfl

theorem keys_mkNode (k v : Int) (l r : Tree) :
    keys (mkNode k v l r) = keys l ++ k :: keys r := rfl

theorem height_mkNode (k v : Int) (l r : Tree) :
    height (mkNode k v l r) = max (height l) (height r) + 1 := rfl

theorem size_mkNode (k v : Int) (l r : Tree) :
    size (mkNode k v l r) = size l + size r + 1 := rfl

theorem isBST_node_iff {k v h s : Int} {l r : Tree} :
    isBST (.node k v h s l r) = true ↔
      (∀ x ∈ keys l, x < k) ∧ (∀ x ∈ keys r, k < x) ∧
        isBST l = true ∧ isBST r = true := by
  simp [isBST, allLT, allGT, Bool.and_eq_true, List.all_eq_true, and_assoc]

theorem heightsOk_node_iff {k v h s : Int} {l r : Tree} :
    heightsOk (.node k v h s l r) = true ↔
      h = max (height l) (height r) + 1 ∧ heightsOk l = true ∧ heightsOk r = true := by
  simp [heightsOk, Bool.and_eq_true, and_assoc]

theorem sizesOk_node_iff {k v h s : Int} {l r : Tree} :
    sizesOk (.node k v h s l r) = true ↔
      s = size l + size r + 1 ∧ sizesOk l = true ∧ sizesOk r = true := by
  simp [sizesOk, Bool.and_eq_true, and_assoc]

theorem balanced_node_iff {k v h s : Int} {l r : Tree} :
    balanced (.node k v h s l r) = true ↔
      (-1 ≤ height l - height r ∧ height l - height r ≤ 1) ∧
        balanced l = true ∧ balanced r = true := by
  simp [balanced, Bool.and_eq_true, and_assoc]

theorem Wf_iff {t : Tree} :
    Wf t = true ↔ isBST t = true ∧ heightsOk t = true ∧ sizesOk t = true := by
  simp [Wf, Bool.and_eq_true, and_assoc]

theorem Inv_iff {t : Tree} :
    Inv t = true ↔ Wf t = true ∧ balanced t = true := by
  simp [Inv, Bool.and_eq_true]

theorem wf_node_iff {k v h s : Int} {l r : Tree} :
    Wf (.node k v h s l r) = true ↔
      (∀ x ∈ keys l, x < k) ∧ (∀ x ∈ keys r, k < x) ∧
        h = max (height l) (height r) + 1 ∧ s = size l + size r + 1 ∧
        Wf l = true ∧ Wf r = true := by
  simp only [Wf_iff, isBST_node_iff, heightsOk_node_iff, sizesOk_node_iff]
  tauto

theorem wf_mkNode {k : Int} {l r : Tree} (v : Int)
    (hl : Wf l = true) (hr : Wf r = true)
    (hlt : ∀ x ∈ keys l, x < k) (hgt : ∀ x ∈ keys r, k < x) :
    Wf (mkNode k v l r) = true := by
  rw [mkNode, wf_node_iff]
  exact ⟨hlt, hgt, rfl, rfl, hl, hr⟩

theorem size_eq_length {t : Tree} (h : sizesOk t = true) :
    size t = ((keys t).length : Int) := by
  induction t with
  | nil => rfl
  | node k v hh s l r ihl ihr =>
    rw [sizesOk_node_iff] at h
    rw [size_node, keys_node, h.1, ihl h.2.1, ihr h.2.2]
    simp only [List.length_append, List.length_cons]
    push_cast
    ring

theorem size_nonneg {t : Tree} (h : sizesOk t = true) : 0 ≤ size t := by
  rw [size_eq_length h]
  positivity

theorem size_nil_iff {t : Tree} (h : sizesOk t = true) :
    size t = 0 ↔ t = .nil := by
  constructor
  · intro h0
    cases t with
    | nil => rfl
    | node k v hh s l r =>
      rw [sizesOk_node_iff] at h
      have hl := size_nonneg h.2.1
      have hr := size_nonneg h.2.2
      rw [size_node] at h0
      omega
  · intro h0; subst h0; rfl

theorem height_nonneg {t : Tree} (h : heightsOk t = true) : 0 ≤ height t := by
  induction t with
  | nil => simp [height]
  | node k v hh s l r ihl ihr =>
    rw [heightsOk_node_iff] at h
    have hl := ihl h.2.1
    have hr := ihr h.2.2
    rw [height_node, h.1]
    omega

theorem height_nil_of_le {t : Tree} (h : heightsOk t = true)
    (h0 : height t ≤ 0) : t = .nil := by
  cases t with
  | nil => rfl
  | node k v hh s l r =>
    rw [heightsOk_node_iff] at h
    have hl := height_nonneg h.2.1
    have hr := height_nonneg h.2.2
    rw [height_node, h.1] at h0
    omega

/-! ## Rotations preserve the in-order key sequence -/

theorem keys_rightRotation (t : Tree) : keys (rightRotation t) = keys t := by
  match t with
  | .nil => rfl
  | .node k v h s .nil r => rfl
  | .node k v h s (.node lk lv lh ls ll lr) r =>
    simp [rightRotation, keys_mkNode, keys, List.append_assoc]

theorem keys_leftRotation (t : Tree) : keys (leftRotation t) = keys t := by
  match t with
  | .nil => rfl
  | .node k v h s l .nil => rfl
  | .node k v h s l (.node rk rv rh rs rl rr) =>
    simp [leftRotation, keys_mkNode, keys, List.append_assoc]

theorem keys_rightLeftRotation (t : Tree) : keys (rightLeftRotation t) = keys t := by
  match t with
  | .nil => rfl
  | .node k v h s l .nil => rfl
  | .node k v h s l (.node rk rv rh rs rl rr) =>
    show keys (leftRotation
      (.node k v h s l (rightRotation (.node rk rv rh rs rl rr)))) = _
    rw [keys_leftRotation, keys_node, keys_node, keys_rightRotation]

theorem keys_leftRightRotation (t : Tree) : keys (leftRightRotation t) = keys t := by
  match t with
  | .nil => rfl
  | .node k v h s .nil r => rfl
  | .node k v h s (.node lk lv lh ls ll lr) r =>
    show keys (rightRotation
      (.node k v h s (leftRotation (.node lk lv lh ls ll lr)) r)) = _
    rw [keys_rightRotation, keys_node, keys_node, keys_leftRotation]

end RAVL

namespace RAVL

/-! ## Rotations preserve well-formedness -/

theorem rightRotation_ne_nil {t : Tree} (h : t ≠ .nil) :
    rightRotation t ≠ .nil := by
  match t with
  | .nil => exact absurd rfl h
  | .node k v hh s .nil r => exact fun hx => by cases hx
  | .node k v hh s (.node lk lv lh ls ll lr) r =>
    show mkNode lk lv ll (mkNode k v lr r) ≠ .nil
    rw [mkNode]
    exact fun hx => by cases hx

theorem leftRotation_ne_nil {t : Tree} (h : t ≠ .nil) :
    leftRotation t ≠ .nil := by
  match t with
  | .nil => exact absurd rfl h
  | .node k v hh s l .nil => exact fun hx => by cases hx
  | .node k v hh s l (.node rk rv rh rs rl rr) =>
    show mkNode rk rv (mkNode k v l rl) rr ≠ .nil
    rw [mkNode]
    exact fun hx => by cases hx

theorem wf_rightRotation_core {k v h s : Int} {l r : Tree}
    (hne : l ≠ .nil) (hl : Wf l = true) (hr : Wf r = true)
    (hlt : ∀ x ∈ keys l, x < k) (hgt : ∀ x ∈ keys r, k < x) :
    Wf (rightRotation (.node k v h s l r)) = true := by
  match l with
  | .nil => exact absurd rfl hne
  | .node lk lv lh ls ll lr =>
    show Wf (mkNode lk lv ll (mkNode k v lr r)) = true
    rw [wf_node_iff] at hl
    obtain ⟨h1, h2, -, -, hll, hlr⟩ := hl
    rw [keys_node] at hlt
    simp only [List.mem_append, List.mem_cons] at hlt
    have hlk : lk < k := hlt lk (Or.inr (Or.inl rfl))
    apply wf_mkNode
    · exact hll
    · apply wf_mkNode
      · exact hlr
      · exact hr
      · exact fun x hx => hlt x (Or.inr (Or.inr hx))
      · exact hgt
    · exact h1
    · intro x hx
      rw [keys_mkNode] at hx
      rcases List.mem_append.mp hx with hx | hx
      · exact h2 x hx
      · rcases List.mem_cons.mp hx with hx | hx
        · exact hx ▸ hlk
        · exact lt_trans hlk (hgt x hx)

theorem wf_leftRotation_core {k v h s : Int} {l r : Tree}
    (hne : r ≠ .nil) (hl : Wf l = true) (hr : Wf r = true)
    (hlt : ∀ x ∈ keys l, x < k) (hgt : ∀ x ∈ keys r, k < x) :
    Wf (leftRotation (.node k v h s l r)) = true := by
  match r with
  | .nil => exact absurd rfl hne
  | .node rk rv rh rs rl rr =>
    show Wf (mkNode rk rv (mkNode k v l rl) rr) = true
    rw [wf_node_iff] at hr
    obtain ⟨h1, h2, -, -, hrl, hrr⟩ := hr
    rw [keys_node] at hgt
    simp only [List.mem_append, List.mem_cons] at hgt
    have hrk : k < rk := hgt rk (Or.inr (Or.inl rfl))
    apply wf_mkNode
    · apply wf_mkNode
      · exact hl
      · exact hrl
      · exact hlt
      · exact fun x hx => hgt x (Or.inl hx)
    · exact hrr
    · intro x hx
      rw [keys_mkNode] at hx
      rcases List.mem_append.mp hx with hx | hx
      · exact lt_trans (hlt x hx) hrk
      · rcases List.mem_cons.mp hx with hx | hx
        · exact hx ▸ hrk
        · exact h1 x hx
    · exact h2

theorem wf_rightRotation {t : Tree} (h : Wf t = true) :
    Wf (rightRotation t) = true := by
  match t with
  | .nil => exact h
  | .node k v hh s .nil r => exact h
  | .node k v hh s (.node lk lv lh ls ll lr) r =>
    rw [wf_node_iff] at h
    exact wf_rightRotation_core (fun hx => by cases hx)
      h.2.2.2.2.1 h.2.2.2.2.2 h.1 h.2.1

theorem wf_leftRotation {t : Tree} (h : Wf t = true) :
    Wf (leftRotation t) = true := by
  match t with
  | .nil => exact h
  | .node k v hh s l .nil => exact h
  | .node k v hh s l (.node rk rv rh rs rl rr) =>
    rw [wf_node_iff] at h
    exact wf_leftRotation_core (fun hx => by cases hx)
      h.2.2.2.2.1 h.2.2.2.2.2 h.1 h.2.1

theorem wf_rightLeftRotation {t : Tree} (h : Wf t = true) :
    Wf (rightLeftRotation t) = true := by
  match t with
  | .nil => exact h
  | .node k v hh s l .nil => exact h
  | .node k v hh s l (.node rk rv rh rs rl rr) =>
    show Wf (leftRotation
      (.node k v hh s l (rightRotation (.node rk rv rh rs rl rr)))) = true
    rw [wf_node_iff] at h
    apply wf_leftRotation_core
    · exact rightRotation_ne_nil (fun hx => by cases hx)
    · exact h.2.2.2.2.1
    · exact wf_rightRotation h.2.2.2.2.2
    · exact h.1
    · intro x hx
      rw [show keys (rightRotation (.node rk rv rh rs rl rr)) =
        keys (.node rk rv rh rs rl rr) from keys_rightRotation _] at hx
      exact h.2.1 x hx

theorem wf_leftRightRotation {t : Tree} (h : Wf t = true) :
    Wf (leftRightRotation t) = true := by
  match t with
  | .nil => exact h
  | .node k v hh s .nil r => exact h
  | .node k v hh s (.node lk lv lh ls ll lr) r =>
    show Wf (rightRotation
      (.node k v hh s (leftRotation (.node lk lv lh ls ll lr)) r)) = true
    rw [wf_node_iff] at h
    apply wf_rightRotation_core
    · exact leftRotation_ne_nil (fun hx => by cases hx)
    · exact wf_leftRotation h.2.2.2.2.1
    · exact h.2.2.2.2.2
    · intro x hx
      rw [show keys (leftRotation (.node lk lv lh ls ll lr)) =
        keys (.node lk lv lh ls ll lr) from keys_leftRotation _] at hx
      exact h.1 x hx
    · exact h.2.1

/-! ## Rebalancing preserves keys and well-formedness -/

theorem keys_rebalanceInsert (t : Tree) (key : Int) :
    keys (rebalanceInsert t key) = keys t := by
  simp only [rebalanceInsert]
  split
  · split
    · exact keys_leftRightRotation t
    · exact keys_rightRotation t
  · split
    · split
      · exact keys_rightLeftRotation t
      · exact keys_leftRotation t
    · rfl

theorem keys_rebalanceDelete (t : Tree) :
    keys (rebalanceDelete t) = keys t := by
  simp only [rebalanceDelete]
  split
  · exact keys_rightRotation t
  · split
    · exact keys_leftRightRotation t
    · split
      · exact keys_leftRotation t
      · split
        · exact keys_rightLeftRotation t
        · rfl

theorem wf_rebalanceInsert {t : Tree} (h : Wf t = true) (key : Int) :
    Wf (rebalanceInsert t key) = true := by
  simp only [rebalanceInsert]
  split
  · split
    · exact wf_leftRightRotation h
    · exact wf_rightRotation h
  · split
    · split
      · exact wf_rightLeftRotation h
      · exact wf_leftRotation h
    · exact h

theorem wf_rebalanceDelete {t : Tree} (h : Wf t = true) :
    Wf (rebalanceDelete t) = true := by
  simp only [rebalanceDelete]
  split
  · exact wf_rightRotation h
  · split
    · exact wf_leftRightRotation h
    · split
      · exact wf_leftRotation h
      · split
        · exact wf_rightLeftRotation h
        · exact h

end RAVL

namespace RAVL

/-! ## Insert: keys, well-formedness, duplicate behaviour -/

theorem balanceFactor_node (k v h s : Int) (l r : Tree) :
    balanceFactor (.node k v h s l r) = height l - height r := rfl

theorem insert_nil (k v : Int) : insert .nil k v = .node k v 1 1 .nil .nil := rfl

theorem insert_lt {k' : Int} (v' h s : Int) (l r : Tree) {k : Int} (v : Int)
    (hlt : k < k') :
    insert (.node k' v' h s l r) k v
      = rebalanceInsert (mkNode k' v' (insert l k v) r) k := by
  simp only [insert, if_pos hlt, updHS]

theorem insert_gt {k' : Int} (v' h s : Int) (l r : Tree) {k : Int} (v : Int)
    (hgt : k' < k) :
    insert (.node k' v' h s l r) k v
      = rebalanceInsert (mkNode k' v' l (insert r k v)) k := by
  have h1 : ¬ k < k' := not_lt.mpr (le_of_lt hgt)
  simp only [insert, if_neg h1, if_pos hgt, updHS]

theorem insert_found {k' : Int} (v' h s : Int) (l r : Tree) {k : Int} (v : Int)
    (heq : k = k') :
    insert (.node k' v' h s l r) k v = .node k' v' h s l r := by
  subst heq
  simp only [insert, if_neg (lt_irrefl k), gt_iff_lt]

theorem mem_keys_insert {t : Tree} {k : Int} (v : Int) (x : Int) :
    x ∈ keys (insert t k v) ↔ x = k ∨ x ∈ keys t := by
  induction t with
  | nil => simp [insert_nil, keys_node, keys]
  | node k' v' hh s l r ihl ihr =>
    rcases lt_trichotomy k k' with h1 | h1 | h1
    · rw [insert_lt v' hh s l r v h1, keys_rebalanceInsert, keys_mkNode, keys_node]
      simp only [List.mem_append, List.mem_cons, ihl]
      tauto
    · rw [insert_found v' hh s l r v h1, keys_node]
      subst h1
      simp only [List.mem_append, List.mem_cons]
      constructor
      · tauto
      · rintro (rfl | hx)
        · exact Or.inr (Or.inl rfl)
        · exact hx
    · rw [insert_gt v' hh s l r v h1, keys_rebalanceInsert, keys_mkNode, keys_node]
      simp only [List.mem_append, List.mem_cons, ihr]
      tauto

theorem wf_insert {t : Tree} (h : Wf t = true) (k v : Int) :
    Wf (insert t k v) = true := by
  induction t with
  | nil =>
    rw [insert_nil, wf_node_iff]
    refine ⟨?_, ?_, rfl, rfl, rfl, rfl⟩ <;> simp [keys]
  | node k' v' hh s l r ihl ihr =>
    rw [wf_node_iff] at h
    obtain ⟨hlt, hgt, hhh, hss, hl, hr⟩ := h
    rcases lt_trichotomy k k' with h1 | h1 | h1
    · rw [insert_lt v' hh s l r v h1]
      apply wf_rebalanceInsert
      apply wf_mkNode
      · exact ihl hl
      · exact hr
      · intro x hx
        rcases (mem_keys_insert v x).mp hx with rfl | hx
        · exact h1
        · exact hlt x hx
      · exact hgt
    · rw [insert_found v' hh s l r v h1, wf_node_iff]
      exact ⟨hlt, hgt, hhh, hss, hl, hr⟩
    · rw [insert_gt v' hh s l r v h1]
      apply wf_rebalanceInsert
      apply wf_mkNode
      · exact hl
      · exact ihr hr
      · exact hlt
      · intro x hx
        rcases (mem_keys_insert v x).mp hx with rfl | hx
        · exact h1
        · exact hgt x hx

theorem length_keys_insert {t : Tree} {k : Int} (v : Int) (hk : k ∉ keys t) :
    (keys (insert t k v)).length = (keys t).length + 1 := by
  induction t with
  | nil => rfl
  | node k' v' hh s l r ihl ihr =>
    rw [keys_node] at hk
    simp only [List.mem_append, List.mem_cons, not_or] at hk
    obtain ⟨hk1, hk2, hk3⟩ := hk
    rcases lt_trichotomy k k' with h1 | h1 | h1
    · rw [insert_lt v' hh s l r v h1, keys_rebalanceInsert, keys_mkNode, keys_node]
      simp only [List.length_append, List.length_cons, ihl hk1]
      omega
    · exact absurd h1 hk2
    · rw [insert_gt v' hh s l r v h1, keys_rebalanceInsert, keys_mkNode, keys_node]
      simp only [List.length_append, List.length_cons, ihr hk3]
      omega

theorem insert_eq_self_of_mem {t : Tree} (h : Inv t = true) {k : Int}
    (hk : k ∈ keys t) (v : Int) : insert t k v = t := by
  induction t with
  | nil => exact absurd hk (List.not_mem_nil k)
  | node k' v' hh s l r ihl ihr =>
    rw [Inv_iff] at h
    obtain ⟨hwf, hbal⟩ := h
    rw [wf_node_iff] at hwf
    obtain ⟨hlt, hgt, hhh, hss, hl, hr⟩ := hwf
    rw [balanced_node_iff] at hbal
    obtain ⟨hbf, hbl, hbr⟩ := hbal
    rw [keys_node] at hk
    rcases lt_trichotomy k k' with h1 | h1 | h1
    · have hkl : k ∈ keys l := by
        rcases List.mem_append.mp hk with hx | hx
        · exact hx
        · rcases List.mem_cons.mp hx with hx | hx
          · omega
          · exact absurd (hgt k hx) (by omega)
      have hIl : Inv l = true := by rw [Inv_iff]; exact ⟨hl, hbl⟩
      rw [insert_lt v' hh s l r v h1, ihl hIl hkl, mkNode, ← hhh, ← hss]
      simp only [rebalanceInsert, balanceFactor_node]
      rw [if_neg (by omega), if_neg (by omega)]
    · exact insert_found v' hh s l r v h1
    · have hkr : k ∈ keys r := by
        rcases List.mem_append.mp hk with hx | hx
        · exact absurd (hlt k hx) (by omega)
        · rcases List.mem_cons.mp hx with hx | hx
          · omega
          · exact hx
      have hIr : Inv r = true := by rw [Inv_iff]; exact ⟨hr, hbr⟩
      rw [insert_gt v' hh s l r v h1, ihr hIr hkr, mkNode, ← hhh, ← hss]
      simp only [rebalanceInsert, balanceFactor_node]
      rw [if_neg (by omega), if_neg (by omega)]

end RAVL

namespace RAVL

/-! ## Delete: branch equations and successor facts -/

theorem keys_mkNode_eq (k v h s : Int) (l r : Tree) :
    keys (mkNode k v l r) = keys (.node k v h s l r) := rfl

theorem delete_nil (key : Int) : delete .nil key = .nil := rfl

theorem delete_lt {k : Int} (v h s : Int) (l r : Tree) {key : Int}
    (hlt : key < k) :
    delete (.node k v h s l r) key
      = rebalanceDelete (mkNode k v (delete l key) r) := by
  rw [delete, if_pos hlt, updHS]

theorem delete_gt {k : Int} (v h s : Int) (l r : Tree) {key : Int}
    (hgt : k < key) :
    delete (.node k v h s l r) key
      = rebalanceDelete (mkNode k v l (delete r key)) := by
  have h1 : ¬ key < k := not_lt.mpr (le_of_lt hgt)
  rw [delete, if_neg h1, if_pos hgt, updHS]

theorem delete_found_leaf (k v h s : Int) :
    delete (.node k v h s .nil .nil) k = .nil := by
  rw [delete, if_neg (lt_irrefl k), if_neg (lt_irrefl k), if_pos rfl, if_pos rfl]

theorem delete_found_left_nil (k v h s rk rv rh rs : Int) (rl rr : Tree) :
    delete (.node k v h s .nil (.node rk rv rh rs rl rr)) k
      = rebalanceDelete (mkNode rk rv rl rr) := by
  rw [delete, if_neg (lt_irrefl k), if_neg (lt_irrefl k), if_pos rfl,
    if_neg (fun hx => Tree.noConfusion hx), updHS]

theorem delete_found_right_nil (k v h s lk lv lh ls : Int) (ll lr : Tree) :
    delete (.node k v h s (.node lk lv lh ls ll lr) .nil) k
      = rebalanceDelete (mkNode lk lv ll lr) := by
  rw [delete, if_neg (lt_irrefl k), if_neg (lt_irrefl k),
    if_neg (fun hx => Tree.noConfusion hx), if_pos rfl, updHS]

theorem delete_found_both (k v h s lk lv lh ls : Int) (ll lr : Tree)
    (rk rv rh rs : Int) (rl rr : Tree) :
    delete (.node k v h s (.node lk lv lh ls ll lr) (.node rk rv rh rs rl rr)) k
      = rebalanceDelete (mkNode (keyOf (leftmost (.node rk rv rh rs rl rr))) v
          (.node lk lv lh ls ll lr)
          (delete (.node rk rv rh rs rl rr)
            (keyOf (leftmost (.node rk rv rh rs rl rr))))) := by
  rw [delete, if_neg (lt_irrefl k), if_neg (lt_irrefl k),
    if_neg (fun hx => Tree.noConfusion hx), if_neg (fun hx => Tree.noConfusion hx)]
  exact rfl

theorem keyOf_leftmost_mem {t : Tree} (h : t ≠ .nil) :
    keyOf (leftmost t) ∈ keys t := by
  induction t with
  | nil => exact absurd rfl h
  | node k v hh s l r ihl ihr =>
    cases l with
    | nil =>
      show k ∈ keys (.node k v hh s .nil r)
      rw [keys_node]
      exact List.mem_append.mpr (Or.inr (List.mem_cons_self k _))
    | node lk lv lh ls ll lr =>
      rw [keys_node]
      exact List.mem_append.mpr (Or.inl (ihl (fun hx => by cases hx)))

theorem keyOf_leftmost_min {t : Tree} (hb : isBST t = true) :
    ∀ x ∈ keys t, keyOf (leftmost t) ≤ x := by
  induction t with
  | nil => intro x hx; exact absurd hx (List.not_mem_nil x)
  | node k v hh s l r ihl ihr =>
    rw [isBST_node_iff] at hb
    obtain ⟨h1, h2, hbl, hbr⟩ := hb
    cases l with
    | nil =>
      intro x hx
      show k ≤ x
      rw [keys_node] at hx
      rcases List.mem_append.mp hx with hx | hx
      · exact absurd hx (List.not_mem_nil x)
      · rcases List.mem_cons.mp hx with rfl | hx
        · exact le_refl x
        · exact le_of_lt (h2 x hx)
    | node lk lv lh ls ll lr =>
      intro x hx
      show keyOf (leftmost (.node lk lv lh ls ll lr)) ≤ x
      rw [keys_node] at hx
      have hmem := keyOf_leftmost_mem
        (t := .node lk lv lh ls ll lr) (fun hx => by cases hx)
      have hlk : keyOf (leftmost (.node lk lv lh ls ll lr)) < k := h1 _ hmem
      rcases List.mem_append.mp hx with hx | hx
      · exact ihl hbl x hx
      · rcases List.mem_cons.mp hx with rfl | hx
        · exact le_of_lt hlk
        · exact le_of_lt (lt_trans hlk (h2 x hx))

theorem rebalanceDelete_balanced {k v h s : Int} {l r : Tree}
    (hbf1 : -1 ≤ height l - height r) (hbf2 : height l - height r ≤ 1) :
    rebalanceDelete (.node k v h s l r) = .node k v h s l r := by
  have hA : ¬ (height l - height r > 1) := by omega
  have hB : ¬ (height l - height r < -1) := by omega
  simp only [rebalanceDelete, balanceFactor_node, hA, hB, false_and, if_false]

end RAVL

namespace RAVL

/-! ## Delete: keys, well-formedness, absent-key behaviour -/

theorem mem_keys_delete {t : Tree} (hb : isBST t = true) :
    ∀ key x : Int, (x ∈ keys (delete t key) ↔ (x ∈ keys t ∧ x ≠ key)) := by
  induction t with
  | nil => intro key x; rw [delete_nil]; simp [keys]
  | node k v hh s l r ihl ihr =>
    rw [isBST_node_iff] at hb
    obtain ⟨h1, h2, hbl, hbr⟩ := hb
    intro key x
    rcases lt_trichotomy key k with hc | hc | hc
    · rw [delete_lt v hh s l r hc, keys_rebalanceDelete, keys_mkNode, keys_node]
      simp only [List.mem_append, List.mem_cons, ihl hbl key x]
      constructor
      · rintro (⟨hx, hne⟩ | rfl | hx)
        · exact ⟨Or.inl hx, hne⟩
        · exact ⟨Or.inr (Or.inl rfl), by omega⟩
        · exact ⟨Or.inr (Or.inr hx), by have := h2 x hx; omega⟩
      · rintro ⟨hx | hx | hx, hne⟩
        · exact Or.inl ⟨hx, hne⟩
        · exact Or.inr (Or.inl hx)
        · exact Or.inr (Or.inr hx)
    · subst hc
      cases l with
      | nil =>
        cases r with
        | nil =>
          rw [delete_found_leaf, keys_node]
          simp [keys]
        | node rk rv rh rs rl rr =>
          rw [delete_found_left_nil, keys_rebalanceDelete,
            keys_mkNode_eq rk rv rh rs rl rr,
            keys_node key v hh s .nil (.node rk rv rh rs rl rr)]
          simp only [keys, List.nil_append, List.mem_cons]
          constructor
          · intro hx
            have hgx := h2 x (by rw [keys_node]; exact hx)
            exact ⟨Or.inr hx, by omega⟩
          · rintro ⟨rfl | hx, hne⟩
            · exact absurd rfl hne
            · exact hx
      | node lk lv lh ls ll lr =>
        cases r with
        | nil =>
          have h1' : ∀ x : Int, (x ∈ keys ll ∨ x = lk ∨ x ∈ keys lr) → x < key := by
            intro x hx
            apply h1
            rw [keys_node]
            simp only [List.mem_append, List.mem_cons]
            exact hx
          rw [delete_found_right_nil, keys_rebalanceDelete,
            keys_mkNode_eq lk lv lh ls ll lr,
            keys_node key v hh s (.node lk lv lh ls ll lr) .nil]
          simp only [keys, List.append_nil, List.mem_append, List.mem_cons]
          constructor
          · intro hx
            refine ⟨Or.inl hx, by have := h1' x hx; omega⟩
          · rintro ⟨hx | rfl | hx, hne⟩
            · exact hx
            · exact absurd rfl hne
            · exact absurd hx (List.not_mem_nil x)
        | node rk rv rh rs rl rr =>
          have hskmem := keyOf_leftmost_mem
            (t := Tree.node rk rv rh rs rl rr) (fun hx => by cases hx)
          rw [delete_found_both, keys_rebalanceDelete, keys_mkNode,
            keys_node key v hh s (.node lk lv lh ls ll lr) (.node rk rv rh rs rl rr)]
          simp only [List.mem_append, List.mem_cons, ihr hbr _ x]
          constructor
          · rintro (hx | rfl | ⟨hx, hne⟩)
            · exact ⟨Or.inl hx, by have := h1 x hx; omega⟩
            · exact ⟨Or.inr (Or.inr hskmem), by have := h2 _ hskmem; omega⟩
            · exact ⟨Or.inr (Or.inr hx), by have := h2 x hx; omega⟩
          · rintro ⟨hx | rfl | hx, hne⟩
            · exact Or.inl hx
            · exact absurd rfl hne
            · by_cases hxs : x = keyOf (leftmost (Tree.node rk rv rh rs rl rr))
              · exact Or.inr (Or.inl hxs)
              · exact Or.inr (Or.inr ⟨hx, hxs⟩)
    · rw [delete_gt v hh s l r hc, keys_rebalanceDelete, keys_mkNode, keys_node]
      simp only [List.mem_append, List.mem_cons, ihr hbr key x]
      constructor
      · rintro (hx | rfl | ⟨hx, hne⟩)
        · exact ⟨Or.inl hx, by have := h1 x hx; omega⟩
        · exact ⟨Or.inr (Or.inl rfl), by omega⟩
        · exact ⟨Or.inr (Or.inr hx), hne⟩
      · rintro ⟨hx | hx | hx, hne⟩
        · exact Or.inl hx
        · exact Or.inr (Or.inl hx)
        · exact Or.inr (Or.inr ⟨hx, hne⟩)

theorem wf_delete {t : Tree} (h : Wf t = true) :
    ∀ key : Int, Wf (delete t key) = true := by
  induction t with
  | nil => intro key; exact h
  | node k v hh s l r ihl ihr =>
    rw [wf_node_iff] at h
    obtain ⟨h1, h2, hhh, hss, hl, hr⟩ := h
    intro key
    rcases lt_trichotomy key k with hc | hc | hc
    · rw [delete_lt v hh s l r hc]
      apply wf_rebalanceDelete
      apply wf_mkNode
      · exact ihl hl key
      · exact hr
      · intro x hx
        have hbl : isBST l = true := (Wf_iff.mp hl).1
        exact h1 x ((mem_keys_delete hbl key x).mp hx).1
      · exact h2
    · subst hc
      cases l with
      | nil =>
        cases r with
        | nil => rw [delete_found_leaf]; rfl
        | node rk rv rh rs rl rr =>
          rw [delete_found_left_nil]
          apply wf_rebalanceDelete
          rw [wf_node_iff] at hr
          exact wf_mkNode rv hr.2.2.2.2.1 hr.2.2.2.2.2 hr.1 hr.2.1
      | node lk lv lh ls ll lr =>
        cases r with
        | nil =>
          rw [delete_found_right_nil]
          apply wf_rebalanceDelete
          rw [wf_node_iff] at hl
          exact wf_mkNode lv hl.2.2.2.2.1 hl.2.2.2.2.2 hl.1 hl.2.1
        | node rk rv rh rs rl rr =>
          have hbr : isBST (Tree.node rk rv rh rs rl rr) = true := (Wf_iff.mp hr).1
          have hskmem := keyOf_leftmost_mem
            (t := Tree.node rk rv rh rs rl rr) (fun hx => by cases hx)
          have hskmin := keyOf_leftmost_min hbr
          rw [delete_found_both]
          apply wf_rebalanceDelete
          apply wf_mkNode
          · exact hl
          · exact ihr hr _
          · intro x hx
            exact lt_trans (h1 x hx) (h2 _ hskmem)
          · intro x hx
            obtain ⟨hxR, hxne⟩ := (mem_keys_delete hbr _ x).mp hx
            exact lt_of_le_of_ne (hskmin x hxR) (Ne.symm hxne)
    · rw [delete_gt v hh s l r hc]
      apply wf_rebalanceDelete
      apply wf_mkNode
      · exact hl
      · exact ihr hr key
      · exact h1
      · intro x hx
        have hbr : isBST r = true := (Wf_iff.mp hr).1
        exact h2 x ((mem_keys_delete hbr key x).mp hx).1

theorem length_keys_delete {t : Tree} (hb : isBST t = true) :
    ∀ key : Int, key ∈ keys t →
      (keys t).length = (keys (delete t key)).length + 1 := by
  induction t with
  | nil => intro key hk; exact absurd hk (List.not_mem_nil key)
  | node k v hh s l r ihl ihr =>
    rw [isBST_node_iff] at hb
    obtain ⟨h1, h2, hbl, hbr⟩ := hb
    intro key hk
    rw [keys_node] at hk
    rcases lt_trichotomy key k with hc | hc | hc
    · have hkl : key ∈ keys l := by
        rcases List.mem_append.mp hk with hx | hx
        · exact hx
        · rcases List.mem_cons.mp hx with rfl | hx
          · omega
          · exact absurd (h2 key hx) (by omega)
      rw [delete_lt v hh s l r hc, keys_rebalanceDelete, keys_mkNode,
        keys_node k v hh s l r]
      simp only [List.length_append, List.length_cons]
      have := ihl hbl key hkl
      omega
    · subst hc
      cases l with
      | nil =>
        cases r with
        | nil =>
          rw [delete_found_leaf, keys_node]
          simp [keys]
        | node rk rv rh rs rl rr =>
          rw [delete_found_left_nil, keys_rebalanceDelete,
            keys_mkNode_eq rk rv rh rs rl rr,
            keys_node key v hh s .nil (.node rk rv rh rs rl rr)]
          simp [keys]
      | node lk lv lh ls ll lr =>
        cases r with
        | nil =>
          rw [delete_found_right_nil, keys_rebalanceDelete,
            keys_mkNode_eq lk lv lh ls ll lr,
            keys_node key v hh s (.node lk lv lh ls ll lr) .nil]
          simp only [keys, List.append_nil, List.nil_append,
            List.length_append, List.length_cons, List.length_nil]
        | node rk rv rh rs rl rr =>
          have hskmem := keyOf_leftmost_mem
            (t := Tree.node rk rv rh rs rl rr) (fun hx => by cases hx)
          have hlen := ihr hbr _ hskmem
          rw [delete_found_both, keys_rebalanceDelete, keys_mkNode,
            keys_node key v hh s (.node lk lv lh ls ll lr) (.node rk rv rh rs rl rr)]
          simp only [List.length_append, List.length_cons]
          omega
    · have hkr : key ∈ keys r := by
        rcases List.mem_append.mp hk with hx | hx
        · exact absurd (h1 key hx) (by omega)
        · rcases List.mem_cons.mp hx with rfl | hx
          · omega
          · exact hx
      rw [delete_gt v hh s l r hc, keys_rebalanceDelete, keys_mkNode,
        keys_node k v hh s l r]
      simp only [List.length_append, List.length_cons]
      have := ihr hbr key hkr
      omega

theorem delete_eq_self_of_not_mem {t : Tree} (h : Inv t = true) :
    ∀ key : Int, key ∉ keys t → delete t key = t := by
  induction t with
  | nil => intro key hk; rfl
  | node k v hh s l r ihl ihr =>
    rw [Inv_iff] at h
    obtain ⟨hwf, hbal⟩ := h
    rw [wf_node_iff] at hwf
    obtain ⟨h1, h2, hhh, hss, hl, hr⟩ := hwf
    rw [balanced_node_iff] at hbal
    obtain ⟨hbf, hbl, hbr⟩ := hbal
    intro key hk
    rw [keys_node] at hk
    simp only [List.mem_append, List.mem_cons, not_or] at hk
    obtain ⟨hk1, hk2, hk3⟩ := hk
    rcases lt_trichotomy key k with hc | hc | hc
    · have hIl : Inv l = true := by rw [Inv_iff]; exact ⟨hl, hbl⟩
      rw [delete_lt v hh s l r hc, ihl hIl key hk1, mkNode, ← hhh, ← hss]
      exact rebalanceDelete_balanced hbf.1 hbf.2
    · exact absurd hc hk2
    · have hIr : Inv r = true := by rw [Inv_iff]; exact ⟨hr, hbr⟩
      rw [delete_gt v hh s l r hc, ihr hIr key hk3, mkNode, ← hhh, ← hss]
      exact rebalanceDelete_balanced hbf.1 hbf.2

theorem search_eq_nil_of_not_mem {t : Tree} (hb : isBST t = true) :
    ∀ key : Int, key ∉ keys t → search t key = .nil := by
  induction t with
  | nil => intro key hk; rfl
  | node k v hh s l r ihl ihr =>
    rw [isBST_node_iff] at hb
    obtain ⟨h1, h2, hbl, hbr⟩ := hb
    intro key hk
    rw [keys_node] at hk
    simp only [List.mem_append, List.mem_cons, not_or] at hk
    obtain ⟨hk1, hk2, hk3⟩ := hk
    have hne : ¬ (k == key) = true := by
      simp only [beq_iff_eq]
      exact fun hx => hk2 hx.symm
    rw [search, if_neg hne]
    by_cases hlt : k < key
    · rw [if_pos hlt]; exact ihr hbr key hk3
    · rw [if_neg hlt]; exact ihl hbl key hk1

end RAVL

namespace RAVL

/-! ## rank and findRank -/

theorem size_nil : size .nil = 0 := rfl

theorem findRank_eq_nil_iff {t : Tree} (hs : sizesOk t = true) :
    ∀ rk : Int, (findRank t rk = .nil ↔ (rk < 1 ∨ rk > size t)) := by
  induction t with
  | nil =>
    intro rk
    rw [size_nil]
    constructor
    · intro _; omega
    · intro _; rfl
  | node k v hh s l r ihl ihr =>
    rw [sizesOk_node_iff] at hs
    obtain ⟨hss, hsl, hsr⟩ := hs
    have hl0 : 0 ≤ size l := size_nonneg hsl
    have hr0 : 0 ≤ size r := size_nonneg hsr
    intro rk
    simp only [findRank]
    by_cases hc1 : (size l + 1) == rk
    · rw [if_pos hc1]
      have heq : rk = size l + 1 := (beq_iff_eq.mp hc1).symm
      constructor
      · intro hx; exact Tree.noConfusion hx
      · intro hx
        exfalso
        rw [size_node, hss] at hx
        omega
    · rw [if_neg hc1]
      have hne : rk ≠ size l + 1 :=
        fun hx => hc1 (by rw [hx]; exact beq_self_eq_true _)
      by_cases hc2 : rk < size l + 1
      · rw [if_pos hc2, ihl hsl rk, size_node, hss]
        omega
      · rw [if_neg hc2, ihr hsr (rk - (size l + 1)), size_node, hss]
        omega

theorem rank_bounds {t : Tree} (hb : isBST t = true) (hs : sizesOk t = true) :
    ∀ key ∈ keys t, 1 ≤ rank t key ∧ rank t key ≤ size t := by
  induction t with
  | nil => intro key hk; exact absurd hk (List.not_mem_nil key)
  | node k v hh s l r ihl ihr =>
    rw [isBST_node_iff] at hb
    obtain ⟨h1, h2, hbl, hbr⟩ := hb
    rw [sizesOk_node_iff] at hs
    obtain ⟨hss, hsl, hsr⟩ := hs
    have hl0 : 0 ≤ size l := size_nonneg hsl
    have hr0 : 0 ≤ size r := size_nonneg hsr
    intro key hk
    rw [keys_node] at hk
    simp only [rank]
    rcases List.mem_append.mp hk with hkl | hkc
    · have hklt : key < k := h1 key hkl
      rw [if_neg (by simp only [beq_iff_eq]; omega), if_neg (by omega)]
      have := ihl hbl hsl key hkl
      rw [size_node, hss]
      omega
    · rcases List.mem_cons.mp hkc with rfl | hkr
      · rw [if_pos (beq_self_eq_true key), size_node, hss]
        omega
      · have hkgt : k < key := h2 key hkr
        rw [if_neg (by simp only [beq_iff_eq]; omega), if_pos hkgt]
        have := ihr hbr hsr key hkr
        rw [size_node, hss]
        omega

theorem keyOf_findRank_mem {t : Tree} (hs : sizesOk t = true) :
    ∀ rk : Int, 1 ≤ rk → rk ≤ size t → keyOf (findRank t rk) ∈ keys t := by
  induction t with
  | nil =>
    intro rk h1 h2
    rw [size_nil] at h2
    exfalso
    omega
  | node k v hh s l r ihl ihr =>
    rw [sizesOk_node_iff] at hs
    obtain ⟨hss, hsl, hsr⟩ := hs
    have hl0 : 0 ≤ size l := size_nonneg hsl
    have hr0 : 0 ≤ size r := size_nonneg hsr
    intro rk hr1 hr2
    rw [size_node, hss] at hr2
    simp only [findRank]
    by_cases hc1 : (size l + 1) == rk
    · rw [if_pos hc1]
      show k ∈ keys (Tree.node k v hh s l r)
      rw [keys_node]
      exact List.mem_append.mpr (Or.inr (List.mem_cons_self k _))
    · rw [if_neg hc1]
      have hne : rk ≠ size l + 1 :=
        fun hx => hc1 (by rw [hx]; exact beq_self_eq_true _)
      by_cases hc2 : rk < size l + 1
      · rw [if_pos hc2, keys_node]
        exact List.mem_append.mpr (Or.inl (ihl hsl rk hr1 (by omega)))
      · rw [if_neg hc2, keys_node]
        refine List.mem_append.mpr (Or.inr (List.mem_cons.mpr (Or.inr ?_)))
        exact ihr hsr (rk - (size l + 1)) (by omega) (by omega)

theorem findRank_rank_of_mem {t : Tree} (hb : isBST t = true)
    (hs : sizesOk t = true) :
    ∀ key ∈ keys t, findRank t (rank t key) ≠ .nil ∧
      keyOf (findRank t (rank t key)) = key := by
  induction t with
  | nil => intro key hk; exact absurd hk (List.not_mem_nil key)
  | node k v hh s l r ihl ihr =>
    rw [isBST_node_iff] at hb
    obtain ⟨h1, h2, hbl, hbr⟩ := hb
    rw [sizesOk_node_iff] at hs
    obtain ⟨hss, hsl, hsr⟩ := hs
    have hl0 : 0 ≤ size l := size_nonneg hsl
    intro key hk
    rw [keys_node] at hk
    rcases List.mem_append.mp hk with hkl | hkc
    · have hklt : key < k := h1 key hkl
      have hrb := rank_bounds hbl hsl key hkl
      simp only [rank]
      rw [if_neg (by simp only [beq_iff_eq]; omega), if_neg (by omega)]
      simp only [findRank]
      rw [if_neg (by simp only [beq_iff_eq]; omega), if_pos (by omega)]
      exact ihl hbl hsl key hkl
    · rcases List.mem_cons.mp hkc with rfl | hkr
      · simp only [rank]
        rw [if_pos (beq_self_eq_true key)]
        simp only [findRank]
        rw [if_pos (beq_self_eq_true _)]
        exact ⟨fun hx => Tree.noConfusion hx, rfl⟩
      · have hkgt : k < key := h2 key hkr
        have hrb := rank_bounds hbr hsr key hkr
        simp only [rank]
        rw [if_neg (by simp only [beq_iff_eq]; omega), if_pos hkgt]
        simp only [findRank]
        rw [if_neg (by simp only [beq_iff_eq]; omega), if_neg (by omega)]
        have harg : size l + 1 + rank r key - (size l + 1) = rank r key := by ring
        rw [harg]
        exact ihr hbr hsr key hkr

theorem rank_findRank_of_range {t : Tree} (hb : isBST t = true)
    (hs : sizesOk t = true) :
    ∀ rk : Int, 1 ≤ rk → rk ≤ size t →
      rank t (keyOf (findRank t rk)) = rk := by
  induction t with
  | nil =>
    intro rk h1 h2
    rw [size_nil] at h2
    exfalso
    omega
  | node k v hh s l r ihl ihr =>
    rw [isBST_node_iff] at hb
    obtain ⟨h1, h2, hbl, hbr⟩ := hb
    rw [sizesOk_node_iff] at hs
    obtain ⟨hss, hsl, hsr⟩ := hs
    have hl0 : 0 ≤ size l := size_nonneg hsl
    have hr0 : 0 ≤ size r := size_nonneg hsr
    intro rk hr1 hr2
    rw [size_node, hss] at hr2
    simp only [findRank]
    by_cases hc1 : (size l + 1) == rk
    · rw [if_pos hc1]
      have heq : rk = size l + 1 := (beq_iff_eq.mp hc1).symm
      show rank (Tree.node k v hh s l r) k = rk
      simp only [rank]
      rw [if_pos (beq_self_eq_true k)]
      omega
    · rw [if_neg hc1]
      have hne : rk ≠ size l + 1 :=
        fun hx => hc1 (by rw [hx]; exact beq_self_eq_true _)
      by_cases hc2 : rk < size l + 1
      · rw [if_pos hc2]
        have hkey := keyOf_findRank_mem hsl rk hr1 (by omega)
        have hklt : keyOf (findRank l rk) < k := h1 _ hkey
        simp only [rank]
        rw [if_neg (by simp only [beq_iff_eq]; omega), if_neg (by omega)]
        exact ihl hbl hsl rk hr1 (by omega)
      · rw [if_neg hc2]
        have hkey := keyOf_findRank_mem hsr (rk - (size l + 1)) (by omega) (by omega)
        have hkgt : k < keyOf (findRank r (rk - (size l + 1))) := h2 _ hkey
        simp only [rank]
        rw [if_neg (by simp only [beq_iff_eq]; omega), if_pos hkgt]
        rw [ihr hbr hsr (rk - (size l + 1)) (by omega) (by omega)]
        ring

end RAVL

namespace RAVL

/-! ## Operation sequences preserve well-formedness -/

theorem wf_applyOp {t : Tree} (h : Wf t = true) (op : Op) :
    Wf (applyOp t op) = true := by
  cases op with
  | ins k v => exact wf_insert h k v
  | del k => exact wf_delete h k

theorem wf_applyOps {t : Tree} (h : Wf t = true) (ops : List Op) :
    Wf (applyOps t ops) = true := by
  induction ops generalizing t with
  | nil => exact h
  | cons op ops ih => exact ih (wf_applyOp h op)

/-! ## The claims -/

/-- C1: the claim states that every tree obtained from the empty tree by
inserts and deletes satisfies `|balanceFactor(n)| ≤ 1` at every node after
every operation.  The code violates it: inserting 10, 5, 20, 15 into the
empty tree yields a valid AVL tree, but deleting 5 leaves the root with
balance factor 2, because `delete`'s right-heavy case applies a single
left rotation when the right child's balance factor is +1 (source lines
337-339). -/
theorem C1_balance_violation :
    Inv (applyOps .nil [.ins 10 0, .ins 5 0, .ins 20 0, .ins 15 0]) = true ∧
    balanceFactor (applyOps .nil
      [.ins 10 0, .ins 5 0, .ins 20 0, .ins 15 0, .del 5]) = 2 ∧
    balanced (applyOps .nil
      [.ins 10 0, .ins 5 0, .ins 20 0, .ins 15 0, .del 5]) = false := by
  decide

/-- C2: the claim states that `rank` returns the `NOTIN` sentinel for
every absent key.  The code violates it: on a right-descending miss it
returns `size(left) + 1 + NOTIN` (source line 354), which differs from
`NOTIN` for every possible sentinel value; with the conventional
`NOTIN = -1`, `rank` on the absent key 30 in the tree {10, 20} returns 1,
which is also the valid rank of the present key 10. -/
theorem C2_rank_sentinel_violation :
    rank (.node 10 0 1 1 .nil .nil) 20 = NOTIN + 1 ∧
    rank (.node 10 0 1 1 .nil .nil) 20 ≠ NOTIN ∧
    rank (applyOps .nil [.ins 10 0, .ins 20 0]) 30 = 1 ∧
    NOTIN = -1 ∧
    rank (applyOps .nil [.ins 10 0, .ins 20 0]) 10 = 1 := by
  refine ⟨?_, ?_, by decide, by decide, by decide⟩
  · show (0 : Int) + 1 + NOTIN = NOTIN + 1
    omega
  · show (0 : Int) + 1 + NOTIN ≠ NOTIN
    omega

/-- C3: the claim states delete's right-heavy tie-break mirrors the
left-heavy one: balance < -1 with `bf(right) ≤ 0` → left rotation, with
`bf(right) > 0` → right-left rotation.  The code instead applies the
single left rotation whenever `bf(right) ≥ 0` (source lines 337-339): at
the spliced tree with balance factor -2 and right-child balance factor
+1, `delete` returns the left-rotated tree, which differs from the
right-left-rotated tree the claim requires. -/
theorem C3_delete_rotation_choice :
    balanceFactor (Tree.node 10 0 3 3 .nil
      (Tree.node 20 0 2 2 (Tree.node 15 0 1 1 .nil .nil) .nil)) = -2 ∧
    balanceFactor (childRight (Tree.node 10 0 3 3 .nil
      (Tree.node 20 0 2 2 (Tree.node 15 0 1 1 .nil .nil) .nil))) = 1 ∧
    delete (Tree.node 10 0 3 4 (Tree.node 5 0 1 1 .nil .nil)
      (Tree.node 20 0 2 2 (Tree.node 15 0 1 1 .nil .nil) .nil)) 5
      = leftRotation (Tree.node 10 0 3 3 .nil
          (Tree.node 20 0 2 2 (Tree.node 15 0 1 1 .nil .nil) .nil)) ∧
    rightLeftRotation (Tree.node 10 0 3 3 .nil
      (Tree.node 20 0 2 2 (Tree.node 15 0 1 1 .nil .nil) .nil))
      ≠ leftRotation (Tree.node 10 0 3 3 .nil
          (Tree.node 20 0 2 2 (Tree.node 15 0 1 1 .nil .nil) .nil)) := by
  decide

/-- C4: every tree produced from the empty tree by any sequence of insert
and delete operations is in binary-search-tree order: at every node, all
left-subtree keys are strictly smaller and all right-subtree keys strictly
larger than the node's key. -/
theorem C4_bst_order (ops : List Op) :
    isBST (applyOps .nil ops) = true :=
  (Wf_iff.mp (wf_applyOps (by decide) ops)).1

theorem C4_bst_order_witness :
    isBST (applyOps .nil
      [.ins 10 0, .ins 5 0, .ins 20 0, .ins 15 0, .del 5]) = true :=
  C4_bst_order [.ins 10 0, .ins 5 0, .ins 20 0, .ins 15 0, .del 5]

/-- C5: every tree produced from the empty tree by any sequence of insert
and delete operations has exact caches: every node's size field equals
1 + size(left) + size(right) and every node's height field equals
1 + max(height(left), height(right)), absent children contributing 0. -/
theorem C5_augmentation (ops : List Op) :
    sizesOk (applyOps .nil ops) = true ∧
    heightsOk (applyOps .nil ops) = true :=
  ⟨(Wf_iff.mp (wf_applyOps (by decide) ops)).2.2,
    (Wf_iff.mp (wf_applyOps (by decide) ops)).2.1⟩

theorem C5_augmentation_witness :
    sizesOk (applyOps .nil
      [.ins 10 0, .ins 5 0, .ins 20 0, .ins 15 0, .del 5]) = true ∧
    heightsOk (applyOps .nil
      [.ins 10 0, .ins 5 0, .ins 20 0, .ins 15 0, .del 5]) = true :=
  C5_augmentation [.ins 10 0, .ins 5 0, .ins 20 0, .ins 15 0, .del 5]

/-- C6: for every tree satisfying the data-model invariants, `findRank`
at `rank(t, k)` returns the node with key `k` for every present key `k`,
and `rank` at the key of `findRank(t, r)` returns `r` for every valid
rank `1 ≤ r ≤ size(t)`. -/
theorem C6_rank_findRank_inverse {t : Tree} (h : Inv t = true) :
    (∀ key ∈ keys t, findRank t (rank t key) ≠ .nil ∧
        keyOf (findRank t (rank t key)) = key) ∧
    (∀ rk : Int, 1 ≤ rk → rk ≤ size t →
        rank t (keyOf (findRank t rk)) = rk) := by
  obtain ⟨hwf, -⟩ := Inv_iff.mp h
  obtain ⟨hb, -, hs⟩ := Wf_iff.mp hwf
  exact ⟨findRank_rank_of_mem hb hs, rank_findRank_of_range hb hs⟩

theorem C6_rank_findRank_inverse_witness :
    Inv (applyOps .nil [.ins 10 0, .ins 20 0]) = true ∧
    keyOf (findRank (applyOps .nil [.ins 10 0, .ins 20 0])
      (rank (applyOps .nil [.ins 10 0, .ins 20 0]) 20)) = 20 :=
  ⟨by decide, ((C6_rank_findRank_inverse (by decide)).1 20 (by decide)).2⟩

/-- C7: for every invariant-satisfying tree `t`, absent key `k` and value
`v`, inserting `k` and then deleting it makes `search` return absent and
brings the size back: the size after the delete is one less than after
the insert, and equals the original size. -/
theorem C7_insert_delete_round_trip {t : Tree} (h : Inv t = true) {k : Int}
    (hk : k ∉ keys t) (v : Int) :
    search (delete (insert t k v) k) k = .nil ∧
    size (delete (insert t k v) k) = size (insert t k v) - 1 ∧
    size (delete (insert t k v) k) = size t := by
  obtain ⟨hwf, -⟩ := Inv_iff.mp h
  obtain ⟨hb, hh, hs⟩ := Wf_iff.mp hwf
  have hwf1 : Wf (insert t k v) = true := wf_insert hwf k v
  obtain ⟨hb1, hh1, hs1⟩ := Wf_iff.mp hwf1
  have hkmem : k ∈ keys (insert t k v) := (mem_keys_insert v k).mpr (Or.inl rfl)
  have hwf2 : Wf (delete (insert t k v) k) = true := wf_delete hwf1 k
  obtain ⟨hb2, hh2, hs2⟩ := Wf_iff.mp hwf2
  have hknot : k ∉ keys (delete (insert t k v) k) := by
    intro hx
    exact ((mem_keys_delete hb1 k k).mp hx).2 rfl
  have hlen := length_keys_delete hb1 k hkmem
  have hlen2 := length_keys_insert v hk
  refine ⟨search_eq_nil_of_not_mem hb2 k hknot, ?_, ?_⟩
  · rw [size_eq_length hs2, size_eq_length hs1]
    omega
  · rw [size_eq_length hs2, size_eq_length hs]
    omega

theorem C7_insert_delete_round_trip_witness :
    Inv (applyOps .nil [.ins 10 0]) = true ∧
    (20 : Int) ∉ keys (applyOps .nil [.ins 10 0]) ∧
    size (delete (insert (applyOps .nil [.ins 10 0]) 20 0) 20)
      = size (applyOps .nil [.ins 10 0]) :=
  ⟨by decide, by decide,
    (C7_insert_delete_round_trip (by decide) (by decide) 0).2.2⟩

/-- C8: inserting a key that is already present into an
invariant-satisfying tree is a no-op for any value: the tree is returned
unchanged, so its size, in-order key sequence and every stored value are
unchanged. -/
theorem C8_insert_duplicate_noop {t : Tree} (h : Inv t = true) {k : Int}
    (hk : k ∈ keys t) (v : Int) :
    insert t k v = t ∧ size (insert t k v) = size t ∧
      keys (insert t k v) = keys t := by
  have he := insert_eq_self_of_mem h hk v
  exact ⟨he, by rw [he], by rw [he]⟩

theorem C8_insert_duplicate_noop_witness :
    Inv (applyOps .nil [.ins 10 0, .ins 20 1]) = true ∧
    (10 : Int) ∈ keys (applyOps .nil [.ins 10 0, .ins 20 1]) ∧
    insert (applyOps .nil [.ins 10 0, .ins 20 1]) 10 99
      = applyOps .nil [.ins 10 0, .ins 20 1] :=
  ⟨by decide, by decide,
    (C8_insert_duplicate_noop (by decide) (by decide) 99).1⟩

/-- C9: for every invariant-satisfying tree, `findRank t r` is absent
exactly when `r < 1` or `r > size t`; in particular every rank in
`1..size t` yields a node. -/
theorem C9_findRank_range {t : Tree} (h : Inv t = true) (rk : Int) :
    findRank t rk = .nil ↔ (rk < 1 ∨ rk > size t) := by
  obtain ⟨hwf, -⟩ := Inv_iff.mp h
  obtain ⟨-, -, hs⟩ := Wf_iff.mp hwf
  exact findRank_eq_nil_iff hs rk

theorem C9_findRank_range_witness :
    (findRank (applyOps .nil [.ins 10 0, .ins 20 0]) 3 = .nil ↔
      ((3 : Int) < 1 ∨ (3 : Int) > size (applyOps .nil [.ins 10 0, .ins 20 0]))) :=
  C9_findRank_range (by decide) 3

/-- C10: deleting a key that is not present from an invariant-satisfying
tree returns the tree completely unchanged. -/
theorem C10_delete_absent_noop {t : Tree} (h : Inv t = true) {k : Int}
    (hk : k ∉ keys t) : delete t k = t :=
  delete_eq_self_of_not_mem h k hk

theorem C10_delete_absent_noop_witness :
    Inv (applyOps .nil [.ins 10 0, .ins 20 0]) = true ∧
    (30 : Int) ∉ keys (applyOps .nil [.ins 10 0, .ins 20 0]) ∧
    delete (applyOps .nil [.ins 10 0, .ins 20 0]) 30
      = applyOps .nil [.ins 10 0, .ins 20 0] :=
  ⟨by decide, by decide, C10_delete_absent_noop (by decide) (by decide)⟩

end RAVL
